import Mathlib

/-!
Verification of `opencolorio_config_aces/utilities/common.py`.

Each Python definition is embedded as an executable Lean definition; the
theorems at the end of the file settle the specification claims against
those definitions.  Sequences are modelled as `List`, Python strings as
`List Char`, fallible code as `Except`/`Option`.
-/

namespace OCIOUtil

/-- Python `<` on sequences (lists, tuples, strings): scan for the first
position where the elements are unequal and compare there with the element
order; a strict prefix is smaller.  `lt` is the element comparison. -/
def pyLexLt [DecidableEq α] (lt : α → α → Bool) : List α → List α → Bool
  | _, [] => false
  | [], _ :: _ => true
  | a :: as, b :: bs => if a = b then pyLexLt lt as bs else lt a b

/-- The running minimum maintained by Python `min` while iterating: replace
the current value only when the next element is strictly smaller. -/
def pyFold [DecidableEq α] (lt : α → α → Bool) (init : List α)
    (l : List (List α)) : List α :=
  l.foldl (fun m x => if pyLexLt lt x m then x else m) init

/-- Python `min` over a list of sequences: the leftmost minimal element
under the sequence comparison.  `none` models the `ValueError` that Python
raises on an empty argument. -/
def pyMin [DecidableEq α] (lt : α → α → Bool) : List (List α) → Option (List α)
  | [] => none
  | a :: rest => some (pyFold lt a rest)

/-- Number of tuples produced by Python `zip(*args)`: the minimum of the
input lengths (zero when there is no input). -/
def minLen : List (List α) → Nat
  | [] => 0
  | [a] => a.length
  | a :: b :: rest => min a.length (minLen (b :: rest))

/-- The `i`-th column of the inputs: the tuple produced by `zip(*args)` at
index `i` (for `i < minLen args` every input contributes its `i`-th
element). -/
def column (args : List (List α)) (i : Nat) : List α :=
  args.filterMap (fun l => l[i]?)

/-- Model of `list(zip(*args))` from `common_ancestor`: the list of element tuples,
one per index below the length of the shortest input. -/
def zipStar (args : List (List α)) : List (List α) :=
  (List.range (minLen args)).map (column args)

/-- Model of `array = list(map(set, zip(*args)))` in `common_ancestor`. -/
def setArray [DecidableEq α] (args : List (List α)) : List (Finset α) :=
  (zipStar args).map List.toFinset

/-- Model of `divergence = list(filter(lambda i: len(i) > 1, array))` in
`common_ancestor`. -/
def divergenceList [DecidableEq α] (args : List (List α)) : List (Finset α) :=
  (setArray args).filter (fun s => decide (1 < s.card))

/-- Model of `common_ancestor(*args)` from `utilities/common.py`: when some column
set has more than one element, slice the first input at the index of the
first such set; otherwise return `min(args)`.  `lt` is the element
comparison used by `min`.  The `none` cases model the exceptions Python
raises with no input. -/
def common_ancestor [DecidableEq α] (lt : α → α → Bool)
    (args : List (List α)) : Option (List α) :=
  match divergenceList args, args with
  | d :: _, a :: _ => some (a.take ((setArray args).indexOf d))
  | _ :: _, [] => none
  | [], _ => pyMin lt args

/-- Boolean element comparison taken from a linear order, as Python's `<`
on comparable values. -/
def bLt [LT α] [DecidableRel (α := α) (· < ·)] (a b : α) : Bool :=
  decide (a < b)

/-- All inputs agree at column `i`. -/
abbrev colAgree (args : List (List α)) (i : Nat) : Prop :=
  ∀ x ∈ column args i, ∀ y ∈ column args i, x = y

/-- A Python iterable as observed by `first_item`: its truth value (`bool(x)`)
and the items it would yield when iterated.  A list is truthy exactly when it
is non-empty, while an exhausted generator object is truthy yet yields
nothing, so the two fields are independent. -/
structure PyIterable (β : Type) where
  truthy : Bool
  items : List β

/-- Model of `first_item(iterable, default)` from `utilities/common.py`: return
`default` when the iterable is falsy, otherwise the first yielded item, or
Python `None` (here `Option.none`) when the truthy iterable yields nothing
(the function body ends without an explicit return). -/
def first_item (it : PyIterable β) (default : Option β) : Option β :=
  if !it.truthy then default
  else
    match it.items with
    | [] => none
    | x :: _ => some x

/-- Python `str.split(sep)` for a one-character separator: split on every
occurrence, keeping empty segments; the empty string splits to `[""]`. -/
def pySplit (sep : Char) : List Char → List (List Char)
  | [] => [[]]
  | c :: rest =>
    if c = sep then [] :: pySplit sep rest
    else
      match pySplit sep rest with
      | seg :: segs => (c :: seg) :: segs
      | [] => [[c]]

/-- Model of `paths_common_ancestor(*args)` from `utilities/common.py`:
`os.sep.join(common_ancestor(*[path.split(os.sep) for path in args]))`,
with `os.sep` modelled as the character `sep`.  Segment comparison inside
`min` is Python string comparison, i.e. `pyLexLt` over characters. -/
def paths_common_ancestor (sep : Char) (paths : List (List Char)) :
    Option (List Char) :=
  (common_ancestor (pyLexLt (bLt (α := Char))) (paths.map (pySplit sep))).map
    (fun segs => List.intercalate [sep] segs)

/-- A Python value as seen by the vivification utilities: a
`defaultdict(vivification)` node, a plain `dict`, or any other leaf value.
Dictionaries are insertion-ordered association lists, as in Python. -/
inductive PyVal (V : Type) where
  | vdict : List (String × PyVal V) → PyVal V
  | pdict : List (String × PyVal V) → PyVal V
  | leaf : V → PyVal V

/-- Model of `vivification()` from `utilities/common.py`: a fresh empty
`defaultdict(vivification)`. -/
def vivification : PyVal V := .vdict []

/-- Lookup in an insertion-ordered association list (Python `dict`
membership/getitem). -/
def lookupKV : List (String × PyVal V) → String → Option (PyVal V)
  | [], _ => none
  | (k', v') :: rest, k => if k' = k then some v' else lookupKV rest k

/-- Python `d[k] = v` on an insertion-ordered dict: replace in place when
the key exists, otherwise append. -/
def setKV : List (String × PyVal V) → String → PyVal V →
    List (String × PyVal V)
  | [], k, v => [(k, v)]
  | (k', v') :: rest, k, v =>
    if k' = k then (k, v) :: rest else (k', v') :: setKV rest k v

mutual

/-- Model of `vivified_to_dict(vivified)` from `utilities/common.py`: a
`defaultdict` is rebuilt as a plain dict with every value converted
recursively; any value that is not a `defaultdict` (plain dicts included)
is returned unchanged. -/
def vivified_to_dict : PyVal V → PyVal V
  | .vdict kvs => .pdict (vtdList kvs)
  | .pdict kvs => .pdict kvs
  | .leaf v => .leaf v

/-- Pointwise conversion of the entries of a `defaultdict`, preserving key
order (the dict comprehension in `vivified_to_dict`). -/
def vtdList : List (String × PyVal V) → List (String × PyVal V)
  | [] => []
  | (k, v) :: rest => (k, vivified_to_dict v) :: vtdList rest

end

/-- Python `root[k]` on a `defaultdict(vivification)`: when the key is
absent a fresh vivified child is inserted and returned.  The result pairs
the child with the updated node (modelling the in-place insertion). -/
def getVivify (root : PyVal V) (k : String) : PyVal V × PyVal V :=
  match root with
  | .vdict kvs =>
    match lookupKV kvs k with
    | some c => (c, .vdict kvs)
    | none => (vivification, .vdict (kvs ++ [(k, vivification)]))
  | other => (other, other)

/-- Model of `d[k] = v` on a `PyVal` dictionary node. -/
def setItem (d : PyVal V) (k : String) (v : PyVal V) : PyVal V :=
  match d with
  | .vdict kvs => .vdict (setKV kvs k v)
  | .pdict kvs => .pdict (setKV kvs k v)
  | .leaf x => .leaf x

/-- The statement `root[k1][k2] = v` on a vivifying node: `root[k1]`
vivifies (and aliases into `root`), then the item assignment on the child
is reflected back into `root`. -/
def vivSetPath2 (root : PyVal V) (k1 k2 : String) (v : V) : PyVal V :=
  let cr := getVivify root k1
  setItem cr.2 k1 (setItem cr.1 k2 (.leaf v))

/-- Python `str.isspace` on the ASCII whitespace characters relevant to the
wrapped messages. -/
def isSpaceChar (c : Char) : Bool :=
  c == ' ' || c == '\t' || c == '\n' || c == '\r' ||
    c == '\x0b' || c == '\x0c'

/-- Python `str.expandtabs(tabsize)`: each tab fills to the next multiple
of `tabsize`; a newline or carriage return resets the column. -/
def pyExpandTabs (tabsize : Nat) : List Char → Nat → List Char
  | [], _ => []
  | c :: rest, col =>
    if c = '\t' then
      let n := tabsize - col % tabsize
      List.replicate n ' ' ++ pyExpandTabs tabsize rest (col + n)
    else if c = '\n' || c = '\r' then c :: pyExpandTabs tabsize rest 0
    else c :: pyExpandTabs tabsize rest (col + 1)

/-- Chunking step of `textwrap.TextWrapper._split`: the text is cut into
maximal runs of whitespace and of non-whitespace (the stdlib additionally
splits on hyphens, which none of the verified properties depend on). -/
def splitChunks : List Char → List (List Char)
  | [] => []
  | c :: rest =>
    match splitChunks rest with
    | [] => [[c]]
    | [] :: chunks => [c] :: [] :: chunks
    | (d :: ds) :: chunks =>
      if isSpaceChar c = isSpaceChar d then (c :: d :: ds) :: chunks
      else [c] :: (d :: ds) :: chunks

/-- A chunk consisting purely of whitespace (`chunk.strip() == ''`). -/
def isSpaceChunk (ch : List Char) : Bool := ch.all isSpaceChar

/-- The greedy inner loop of `textwrap.TextWrapper._wrap_chunks`: take
chunks while the accumulated length stays within `w`; return the taken
chunks and the remainder. -/
def takeGreedy (w : Nat) (cur : Nat) :
    List (List Char) → List (List Char) × List (List Char)
  | [] => ([], [])
  | ch :: rest =>
    if cur + ch.length ≤ w then
      let tr := takeGreedy w (cur + ch.length) rest
      (ch :: tr.1, tr.2)
    else ([], ch :: rest)

/-- One-line-at-a-time loop of `textwrap.TextWrapper._wrap_chunks` with
`drop_whitespace=True` and `break_long_words=False`: on every line after
the first emitted one a leading whitespace chunk is dropped; chunks are
packed greedily; a chunk longer than `w` is placed alone on its line; a
trailing whitespace chunk is dropped; empty lines are not emitted.  `fuel`
bounds the iteration count (each round consumes at least one chunk). -/
def wrapLoop (w : Nat) : Nat → Bool → List (List Char) → List (List Char)
  | 0, _, _ => []
  | _, _, [] => []
  | fuel + 1, emitted, chs@(ch0 :: rest0) =>
    let chunks1 := if emitted && isSpaceChunk ch0 then rest0 else chs
    match chunks1 with
    | [] => []
    | ch :: rest =>
      let gr := takeGreedy w 0 (ch :: rest)
      let cr : List (List Char) × List (List Char) :=
        match gr.1, gr.2 with
        | [], long :: rest2 =>
          if w < long.length then ([long], rest2) else ([], long :: rest2)
        | cur, rem => (cur, rem)
      let cur2 :=
        match cr.1.getLast? with
        | some last => if isSpaceChunk last then cr.1.dropLast else cr.1
        | none => cr.1
      match cur2 with
      | [] => wrapLoop w fuel emitted cr.2
      | _ => cur2.flatten :: wrapLoop w fuel true cr.2

/-- Model of `textwrap.TextWrapper(width=w, break_long_words=False,
replace_whitespace=False).wrap(text)` for a positive width: expand tabs
(the default `expand_tabs=True` munging), chunk, and run the wrap loop. -/
def textWrap (w : Nat) (text : List Char) : List (List Char) :=
  let chunks := splitChunks (pyExpandTabs 8 text 0)
  wrapLoop w (chunks.length + 1) false chunks

/-- Model of `wrapper.wrap(line)` as called by `message_box`, including the
`ValueError` the stdlib raises from `_wrap_chunks` when the configured
width is not positive. -/
def pyWrap (width : Int) (text : List Char) :
    Except String (List (List Char)) :=
  if width ≤ 0 then .error "invalid width"
  else .ok (textWrap width.toNat text)

/-- The local `inner(text)` of `message_box`:
`"*{pad}{text}{fill}{pad}*"` where `fill` pads the row out to `width`
(and is empty when the text overflows, as a negative Python string repeat
is empty). -/
def innerRow (width padding : Nat) (text : List Char) : List Char :=
  ['*'] ++ List.replicate padding ' ' ++ text
    ++ List.replicate (width - text.length - padding * 2 - 2) ' '
    ++ List.replicate padding ' ' ++ ['*']

/-- Model of `message_box(message, width, padding, print_callable)` from
`utilities/common.py`.  The lines handed to the print callable are
collected in order; the `Bool` is the function's return value.  An
`.error` models the `ValueError` escaping from `wrapper.wrap` when
`width - padding*2 - 2 <= 0` (the two border/blank lines already printed
before the failure are not modelled).  A line that wraps to the empty list
is replaced by the string `" "`, over which the `chain` iteration yields
the single one-character line `" "`. -/
def message_box (message : List Char) (width padding : Nat) :
    Except String (List (List Char) × Bool) :=
  let ideal_width : Int := (width : Int) - (padding : Int) * 2 - 2
  match (pySplit '\n' message).mapM (fun line => pyWrap ideal_width line) with
  | .error e => .error e
  | .ok ls =>
    let ls2 := ls.map (fun l => if l.length = 0 then [[' ']] else l)
    let body :=
      ls2.flatten.map (fun line => innerRow width padding (pyExpandTabs 8 line 0))
    .ok ((List.replicate width '=' :: innerRow width padding [] :: body)
          ++ [innerRow width padding [], List.replicate width '='], true)

/-- The rows `message_box` prints strictly between the top and bottom `"="`
border lines (empty when the call fails). -/
def interiorRows (message : List Char) (width padding : Nat) :
    List (List Char) :=
  match message_box message width padding with
  | .ok wb => (wb.1.drop 1).dropLast
  | .error _ => []

/-- The fragment of Python regular expressions exercised by
`multi_replace`: literal characters, one-character classes such as `\w`,
concatenation, the empty pattern and the greedy `+`. -/
inductive RE where
  | ch : Char → RE
  | cls : (Char → Bool) → RE
  | eps : RE
  | seq : RE → RE → RE
  | plus : RE → RE

/-- Literal pattern: the concatenation of the characters of a string. -/
def strRE (s : List Char) : RE :=
  s.foldr (fun c r => RE.seq (RE.ch c) r) RE.eps

/-- Python `\w` on the ASCII range: letters, digits and underscore. -/
def isWordChar (c : Char) : Bool := c.isAlphanum || c == '_'

/-- Backtracking matcher with Python `re` semantics: `k` is the
continuation receiving the rest of the input after the candidate match;
`+` is greedy, trying the longer repetition first.  `fuel` bounds the
recursion depth. -/
def reMatch (k : List Char → Option (List Char)) :
    Nat → RE → List Char → Option (List Char)
  | 0, _, _ => none
  | _ + 1, .ch c, s =>
    match s with
    | x :: rest => if x = c then k rest else none
    | [] => none
  | _ + 1, .cls p, s =>
    match s with
    | x :: rest => if p x then k rest else none
    | [] => none
  | _ + 1, .eps, s => k s
  | fuel + 1, .seq a b, s =>
    reMatch (fun s1 => reMatch k fuel b s1) fuel a s
  | fuel + 1, .plus a, s =>
    reMatch
      (fun s1 =>
        match reMatch k fuel (.plus a) s1 with
        | some r => some r
        | none => k s1)
      fuel a s

/-- Length of the leftmost match of `pat` at the start of `s`, under the
greedy backtracking semantics of Python `re`, or `none`. -/
def matchLen (pat : RE) (s : List Char) : Option Nat :=
  (reMatch some (4 * s.length + 100) pat s).map
    (fun rest => s.length - rest.length)

/-- Scanning loop of `re.sub`: at each position try a match; on a match
emit the replacement and skip the matched text (advancing one character
after an empty match); otherwise copy one character. -/
def pySubGo (pat : RE) (repl : List Char) : Nat → List Char → List Char
  | 0, s => s
  | fuel + 1, s =>
    match matchLen pat s with
    | some 0 =>
      repl ++
        match s with
        | [] => []
        | c :: rest => c :: pySubGo pat repl fuel rest
    | some (n + 1) => repl ++ pySubGo pat repl fuel (s.drop (n + 1))
    | none =>
      match s with
      | [] => []
      | c :: rest => c :: pySubGo pat repl fuel rest

/-- Model of `re.sub(pattern, substitution, name)`: global substitution of all
non-overlapping leftmost matches (the replacement is literal text). -/
def pySub (pat : RE) (repl : List Char) (s : List Char) : List Char :=
  pySubGo pat repl (s.length + 1) s

/-- Model of `multi_replace(name, patterns)` from `utilities/common.py`: fold the
ordered pattern/substitution pairs over the name, each step a global
`re.sub` on the text produced by the previous step. -/
def multi_replace (name : List Char) (patterns : List (RE × List Char)) :
    List Char :=
  patterns.foldl (fun acc ps => pySub ps.1 ps.2 acc) name

/-- The exceptions that can escape the capability gate: a `KeyError` from
looking up an unregistered requirement name, or the `ImportError` raised
by a probe asked to fail hard. -/
inductive PyError where
  | keyError : String → PyError
  | importError : String → PyError
deriving DecidableEq

/-- Model of `is_colour_installed(raise_exception)` from `utilities/common.py`,
parameterised by whether the optional `colour` module imports. -/
def is_colour_installed (installed : Bool) (raise_exception : Bool) :
    Except PyError Bool :=
  if installed then .ok true
  else if raise_exception then
    .error (.importError "Colour related API features are not available")
  else .ok false

/-- Model of `is_jsonpickle_installed(raise_exception)` from `utilities/common.py`. -/
def is_jsonpickle_installed (installed : Bool) (raise_exception : Bool) :
    Except PyError Bool :=
  if installed then .ok true
  else if raise_exception then
    .error (.importError "jsonpickle related API features are not available")
  else .ok false

/-- Model of `is_networkx_installed(raise_exception)` from `utilities/common.py`. -/
def is_networkx_installed (installed : Bool) (raise_exception : Bool) :
    Except PyError Bool :=
  if installed then .ok true
  else if raise_exception then
    .error (.importError "NetworkX related API features are not available")
  else .ok false

/-- A capability registry: what the module-level dict
`REQUIREMENTS_TO_CALLABLE` provides to `required` — a partial map from
requirement name to a probe taking the `raise_exception` flag. -/
def Registry : Type := String → Option (Bool → Except PyError Bool)

/-- Model of `REQUIREMENTS_TO_CALLABLE` from `utilities/common.py`, parameterised
by which of the three optional modules import successfully. -/
def REQUIREMENTS_TO_CALLABLE (colour jsonpickle networkx : Bool) :
    Registry :=
  fun name =>
    if name = "Colour" then some (is_colour_installed colour)
    else if name = "jsonpickle" then some (is_jsonpickle_installed jsonpickle)
    else if name = "NetworkX" then some (is_networkx_installed networkx)
    else none

/-- The `for requirement in requirements` loop of the function wrapped by
`required`: look each name up in the registry (a missing name raises
`KeyError`) and call its probe with `raise_exception=True`.  The first
component records, in order, every `(name, raise_exception)` probe call
actually made. -/
def runChecks (registry : Registry) :
    List String → List (String × Bool) × Except PyError Unit
  | [] => ([], .ok ())
  | r :: rest =>
    match registry r with
    | none => ([], .error (.keyError r))
    | some probe =>
      match probe true with
      | .error e => ([(r, true)], .error e)
      | .ok _ =>
        let tr := runChecks registry rest
        ((r, true) :: tr.1, tr.2)

/-- The function returned by `required(*requirements)` applied to
`function`, then called on `x`: run the requirement checks, propagate
their exception, otherwise call `function` and return its result. -/
def required (registry : Registry) (requirements : List String)
    (function : A → B) (x : A) : Except PyError B :=
  match (runChecks registry requirements).2 with
  | .error e => .error e
  | .ok _ => .ok (function x)

/-! ### Helper lemmas about the sequence operations -/

lemma minLen_le {args : List (List α)} {l : List α} (h : l ∈ args) :
    minLen args ≤ l.length := by
  induction args with
  | nil => cases h
  | cons a rest ih =>
    cases rest with
    | nil =>
      rw [List.mem_singleton] at h
      subst h
      exact le_of_eq rfl
    | cons b t =>
      rcases List.mem_cons.mp h with rfl | h2
      · exact min_le_left _ _
      · exact le_trans (min_le_right _ _) (ih h2)

lemma setArray_length [DecidableEq α] (args : List (List α)) :
    (setArray args).length = minLen args := by
  simp [setArray, zipStar]

lemma setArray_getElem [DecidableEq α] (args : List (List α)) (i : Nat)
    (h : i < (setArray args).length) :
    (setArray args)[i] = (column args i).toFinset := by
  simp [setArray, zipStar, List.getElem_map, List.getElem_range]

lemma mem_column {args : List (List α)} {i : Nat} {x : α} :
    x ∈ column args i ↔ ∃ l ∈ args, l[i]? = some x := List.mem_filterMap

lemma one_lt_card_iff_not_colAgree [DecidableEq α] {args : List (List α)}
    {i : Nat} :
    1 < (column args i).toFinset.card ↔ ¬ colAgree args i := by
  rw [Finset.one_lt_card]
  constructor
  · rintro ⟨x, hx, y, hy, hxy⟩ hagree
    exact hxy (hagree x (List.mem_toFinset.mp hx) y (List.mem_toFinset.mp hy))
  · intro hn
    unfold colAgree at hn
    push_neg at hn
    obtain ⟨x, hx, y, hy, hxy⟩ := hn
    exact ⟨x, List.mem_toFinset.mpr hx, y, List.mem_toFinset.mpr hy, hxy⟩

lemma indexOf_filter_head [DecidableEq β] {p : β → Bool} {l : List β} {x : β}
    {xs : List β} (h : l.filter p = x :: xs) : l.indexOf x = l.findIdx p := by
  induction l generalizing xs with
  | nil => simp at h
  | cons a t ih =>
    by_cases hpa : p a
    · rw [List.filter_cons_of_pos hpa] at h
      injection h with h1 _
      subst h1
      rw [List.indexOf_cons_self, List.findIdx_cons]
      simp [hpa]
    · rw [List.filter_cons_of_neg hpa] at h
      have hx : p x := (List.mem_filter.mp (h ▸ List.mem_cons_self x xs)).2
      have hne : a ≠ x := fun he => hpa (he ▸ hx)
      rw [List.indexOf_cons_ne _ hne, List.findIdx_cons]
      simp [hpa, ih h]

lemma common_ancestor_divergent [DecidableEq α] (lt : α → α → Bool)
    {a : List α} {rest : List (List α)} {d : Nat}
    (hd : d < minLen (a :: rest))
    (hdis : ¬ colAgree (a :: rest) d)
    (hpre : ∀ i, i < d → colAgree (a :: rest) i) :
    common_ancestor lt (a :: rest) = some (a.take d) := by
  have hdlen : d < (setArray (a :: rest)).length := by
    rw [setArray_length]; exact hd
  have hpd : decide (1 < ((setArray (a :: rest))[d]).card) = true := by
    rw [setArray_getElem _ _ hdlen]
    exact decide_eq_true (one_lt_card_iff_not_colAgree.mpr hdis)
  have hfind :
      (setArray (a :: rest)).findIdx (fun s => decide (1 < s.card)) = d := by
    rw [List.findIdx_eq hdlen]
    refine ⟨hpd, fun j hj => ?_⟩
    have hjlen : j < (setArray (a :: rest)).length := lt_trans hj hdlen
    rw [setArray_getElem _ _ hjlen]
    simp only [decide_eq_false_iff_not]
    rw [one_lt_card_iff_not_colAgree]
    exact not_not_intro (hpre j hj)
  have hmem : (setArray (a :: rest))[d] ∈ divergenceList (a :: rest) := by
    rw [divergenceList]
    exact List.mem_filter.mpr ⟨List.getElem_mem hdlen, hpd⟩
  obtain ⟨x, xs, hfil⟩ :=
    List.exists_cons_of_ne_nil (List.ne_nil_of_mem hmem)
  have hidx : (setArray (a :: rest)).indexOf x = d := by
    have : (setArray (a :: rest)).filter (fun s => decide (1 < s.card))
        = x :: xs := hfil
    rw [indexOf_filter_head this, hfind]
  simp only [common_ancestor, hfil, hidx]

lemma common_ancestor_agree [DecidableEq α] (lt : α → α → Bool)
    {args : List (List α)} (h : ∀ i, i < minLen args → colAgree args i) :
    common_ancestor lt args = pyMin lt args := by
  have hfil : divergenceList args = [] := by
    rw [divergenceList, List.filter_eq_nil_iff]
    intro s hs
    rw [setArray, zipStar] at hs
    simp only [List.map_map, List.mem_map, List.mem_range] at hs
    obtain ⟨i, hi, rfl⟩ := hs
    simp only [Function.comp_apply, decide_eq_true_eq, not_lt]
    exact Finset.card_le_one.mpr
      (fun u hu v hv =>
        h i hi u (List.mem_toFinset.mp hu) v (List.mem_toFinset.mp hv))
  cases args with
  | nil => simp only [common_ancestor, hfil]
  | cons a rest => simp only [common_ancestor, hfil]

/-! ### Helper lemmas about the lexicographic comparison and `min` -/

lemma pyLexLt_trans [LinearOrder α] [DecidableEq α] {lt : α → α → Bool}
    (hlt : ∀ u v, lt u v = true ↔ u < v) :
    ∀ {x y z : List α}, pyLexLt lt x y = true →
      pyLexLt lt y z = true → pyLexLt lt x z = true := by
  intro x
  induction x with
  | nil =>
    intro y z hxy hyz
    cases y with
    | nil => simp [pyLexLt] at hxy
    | cons b ys =>
      cases z with
      | nil => simp [pyLexLt] at hyz
      | cons c zs => simp [pyLexLt]
  | cons a xs ih =>
    intro y z hxy hyz
    cases y with
    | nil => simp [pyLexLt] at hxy
    | cons b ys =>
      cases z with
      | nil => simp [pyLexLt] at hyz
      | cons c zs =>
        simp only [pyLexLt] at hxy hyz ⊢
        by_cases hab : a = b
        · subst hab
          rw [if_pos rfl] at hxy
          by_cases hac : a = c
          · subst hac
            rw [if_pos rfl] at hyz ⊢
            exact ih hxy hyz
          · rw [if_neg hac] at hyz ⊢
            exact hyz
        · rw [if_neg hab] at hxy
          have hab' : a < b := (hlt a b).mp hxy
          by_cases hbc : b = c
          · subst hbc
            rw [if_neg hab]
            exact hxy
          · rw [if_neg hbc] at hyz
            have hbc' : b < c := (hlt b c).mp hyz
            have hac' : a < c := lt_trans hab' hbc'
            rw [if_neg (ne_of_lt hac')]
            exact (hlt a c).mpr hac'

lemma pyLexLt_total [LinearOrder α] [DecidableEq α] {lt : α → α → Bool}
    (hlt : ∀ u v, lt u v = true ↔ u < v) :
    ∀ x y : List α, pyLexLt lt x y = true ∨ x = y ∨
      pyLexLt lt y x = true := by
  intro x
  induction x with
  | nil =>
    intro y
    cases y with
    | nil => exact Or.inr (Or.inl rfl)
    | cons b ys => exact Or.inl (by simp [pyLexLt])
  | cons a xs ih =>
    intro y
    cases y with
    | nil => exact Or.inr (Or.inr (by simp [pyLexLt]))
    | cons b ys =>
      by_cases hab : a = b
      · subst hab
        rcases ih ys with h | h | h
        · exact Or.inl (by simp [pyLexLt, h])
        · exact Or.inr (Or.inl (by rw [h]))
        · exact Or.inr (Or.inr (by simp [pyLexLt, h]))
      · rcases lt_or_gt_of_ne hab with h | h
        · exact Or.inl (by
            simp only [pyLexLt, if_neg hab]
            exact (hlt a b).mpr h)
        · exact Or.inr (Or.inr (by
            simp only [pyLexLt, if_neg (Ne.symm hab)]
            exact (hlt b a).mpr h))

lemma pyFold_min_spec [LinearOrder α] [DecidableEq α] {lt : α → α → Bool}
    (hlt : ∀ u v, lt u v = true ↔ u < v) (l : List (List α)) :
    ∀ init : List α,
      (pyFold lt init l = init ∨ pyFold lt init l ∈ l) ∧
      (pyFold lt init l = init ∨
        pyLexLt lt (pyFold lt init l) init = true) ∧
      (∀ b ∈ l, pyFold lt init l = b ∨
        pyLexLt lt (pyFold lt init l) b = true) := by
  induction l with
  | nil => intro init; refine ⟨Or.inl rfl, Or.inl rfl, fun b hb => absurd hb ?_⟩; simp
  | cons x t ih =>
    intro init
    by_cases hx : pyLexLt lt x init = true
    · have hstep : pyFold lt init (x :: t) = pyFold lt x t := by
        simp [pyFold, List.foldl_cons, hx]
      obtain ⟨h1, h2, h3⟩ := ih x
      rw [hstep]
      refine ⟨?_, ?_, ?_⟩
      · rcases h1 with h | h
        · exact Or.inr (by rw [h]; exact List.mem_cons_self x t)
        · exact Or.inr (List.mem_cons_of_mem x h)
      · rcases h2 with h | h
        · exact Or.inr (by rw [h]; exact hx)
        · exact Or.inr (pyLexLt_trans hlt h hx)
      · intro b hb
        rcases List.mem_cons.mp hb with rfl | hb2
        · exact h2
        · exact h3 b hb2
    · have hstep : pyFold lt init (x :: t) = pyFold lt init t := by
        simp [pyFold, List.foldl_cons, hx]
      obtain ⟨h1, h2, h3⟩ := ih init
      rw [hstep]
      have hrx : pyFold lt init t = x ∨
          pyLexLt lt (pyFold lt init t) x = true := by
        rcases pyLexLt_total hlt x init with hxi | heq | hgt
        · exact absurd hxi hx
        · subst heq
          exact h2
        · rcases h2 with h | h
          · exact Or.inr (by rw [h]; exact hgt)
          · exact Or.inr (pyLexLt_trans hlt h hgt)
      refine ⟨?_, h2, ?_⟩
      · rcases h1 with h | h
        · exact Or.inl h
        · exact Or.inr (List.mem_cons_of_mem x h)
      · intro b hb
        rcases List.mem_cons.mp hb with rfl | hb2
        · exact hrx
        · exact h3 b hb2

lemma pyMin_spec [LinearOrder α] [DecidableEq α] {lt : α → α → Bool}
    (hlt : ∀ u v, lt u v = true ↔ u < v) (a : List α)
    (rest : List (List α)) :
    ∃ m, pyMin lt (a :: rest) = some m ∧ m ∈ a :: rest ∧
      ∀ b ∈ a :: rest, m = b ∨ pyLexLt lt m b = true := by
  obtain ⟨h1, h2, h3⟩ := pyFold_min_spec hlt rest a
  refine ⟨pyFold lt a rest, rfl, ?_, ?_⟩
  · rcases h1 with h | h
    · rw [h]; exact List.mem_cons_self a rest
    · exact List.mem_cons_of_mem a h
  · intro b hb
    rcases List.mem_cons.mp hb with rfl | hb2
    · exact h2
    · exact h3 b hb2

lemma colAgree_pair (a : List α) (i : Nat) : colAgree [a, a] i := by
  intro x hx y hy
  obtain ⟨l1, hl1, hlx⟩ := mem_column.mp hx
  obtain ⟨l2, hl2, hly⟩ := mem_column.mp hy
  simp only [List.mem_cons, List.not_mem_nil, or_false, or_self] at hl1 hl2
  subst hl1; subst hl2
  rw [hlx] at hly
  exact Option.some.inj hly

lemma colAgree_single (a : List α) (i : Nat) : colAgree [a] i := by
  intro x hx y hy
  obtain ⟨l1, hl1, hlx⟩ := mem_column.mp hx
  obtain ⟨l2, hl2, hly⟩ := mem_column.mp hy
  simp only [List.mem_singleton] at hl1 hl2
  subst hl1; subst hl2
  rw [hlx] at hly
  exact Option.some.inj hly

/-! ### Helper lemmas about the capability gate -/

lemma runChecks_ok {registry : Registry} :
    ∀ {reqs : List String},
      (∀ r ∈ reqs, ∃ p b, registry r = some p ∧ p true = .ok b) →
      runChecks registry reqs = (reqs.map (fun r => (r, true)), .ok ()) := by
  intro reqs
  induction reqs with
  | nil => intro _; rfl
  | cons r rest ih =>
    intro h
    obtain ⟨p, b, hp, hpt⟩ := h r (List.mem_cons_self r rest)
    simp only [runChecks, hp, hpt, ih (fun q hq => h q (List.mem_cons_of_mem r hq)),
      List.map_cons]

lemma runChecks_err {registry : Registry} {p : Bool → Except PyError Bool}
    {e : PyError} {r : String} :
    ∀ {pre : List String} (post : List String),
      (∀ q ∈ pre, ∃ pq b, registry q = some pq ∧ pq true = .ok b) →
      registry r = some p → p true = .error e →
      runChecks registry (pre ++ r :: post)
        = (pre.map (fun q => (q, true)) ++ [(r, true)], .error e) := by
  intro pre
  induction pre with
  | nil =>
    intro post _ hr hpt
    simp only [List.nil_append, runChecks, hr, hpt, List.map_nil]
  | cons q t ih =>
    intro post h hr hpt
    obtain ⟨pq, b, hq, hqt⟩ := h q (List.mem_cons_self q t)
    simp only [List.cons_append, runChecks, hq, hqt, List.append_eq,
      ih post (fun u hu => h u (List.mem_cons_of_mem q hu)) hr hpt,
      List.map_cons]

lemma runChecks_absent {registry : Registry} {r : String}
    (hr : registry r = none) :
    ∀ {reqs : List String}, r ∈ reqs →
      ∃ e, (runChecks registry reqs).2 = .error e := by
  intro reqs
  induction reqs with
  | nil => intro h; cases h
  | cons q t ih =>
    intro h
    rcases hreg : registry q with _ | p
    · exact ⟨.keyError q, by simp only [runChecks, hreg]⟩
    · rcases hps : p true with e | b
      · exact ⟨e, by simp only [runChecks, hreg, hps]⟩
      · have hrq : r ∈ t := by
          rcases List.mem_cons.mp h with rfl | h2
          · rw [hreg] at hr; cases hr
          · exact h2
        obtain ⟨e, he⟩ := ih hrq
        exact ⟨e, by simp only [runChecks, hreg, hps, he]⟩

lemma runChecks_keyError {registry : Registry} {r : String}
    (hr : registry r = none) :
    ∀ {pre : List String} (post : List String),
      (∀ q ∈ pre, ∃ p b, registry q = some p ∧ p true = .ok b) →
      (runChecks registry (pre ++ r :: post)).2 = .error (.keyError r) := by
  intro pre
  induction pre with
  | nil => intro post _; simp only [List.nil_append, runChecks, hr]
  | cons q t ih =>
    intro post h
    obtain ⟨p, b, hq, hpt⟩ := h q (List.mem_cons_self q t)
    simp only [List.cons_append, runChecks, hq, hpt]
    exact ih post (fun u hu => h u (List.mem_cons_of_mem q hu))

/-! ### Helper lemmas about vivification -/

lemma vtdList_map_fst (kvs : List (String × PyVal V)) :
    (vtdList kvs).map Prod.fst = kvs.map Prod.fst := by
  induction kvs with
  | nil => rfl
  | cons kv rest ih =>
    obtain ⟨k, v⟩ := kv
    simp only [vtdList, List.map_cons, ih]

lemma lookupKV_vtdList (kvs : List (String × PyVal V)) (k : String) :
    lookupKV (vtdList kvs) k = (lookupKV kvs k).map vivified_to_dict := by
  induction kvs with
  | nil => rfl
  | cons kv rest ih =>
    obtain ⟨k', v'⟩ := kv
    by_cases hk : k' = k
    · simp only [vtdList, lookupKV, if_pos hk, Option.map_some']
    · simp only [vtdList, lookupKV, if_neg hk, ih]

/-! ### Helper lemma about the box renderer -/

lemma mapM_ok {γ δ ε : Type} {f : γ → Except ε δ} {g : γ → δ}
    (hf : ∀ a, f a = .ok (g a)) :
    ∀ l : List γ, l.mapM f = .ok (l.map g) := by
  intro l
  induction l with
  | nil => rfl
  | cons a t ih =>
    rw [List.mapM_cons, hf a, ih]
    rfl

/-! ### The claims -/

/-- Claim C1: with one or more input sequences in which some position carries
more than one distinct value, `common_ancestor` returns the leading
sub-sequence of the first input truncated at the first index (within the
range bounded by the shortest input) at which not all inputs agree; in
particular on `("1","2","3"), ("1","2","0"), ("1","2","3","4")` it returns
`("1","2")`, and on `"azerty", "azetty", "azello"` it returns `"aze"`. -/
theorem claim_C1 :
    (∀ (α : Type) [inst : DecidableEq α] (lt : α → α → Bool) (a : List α)
        (rest : List (List α)) (d : Nat),
        d < minLen (a :: rest) → ¬ colAgree (a :: rest) d →
        (∀ i, i < d → colAgree (a :: rest) i) →
        common_ancestor lt (a :: rest) = some (a.take d)) ∧
    common_ancestor (bLt (α := String))
      [["1", "2", "3"], ["1", "2", "0"], ["1", "2", "3", "4"]]
      = some ["1", "2"] ∧
    common_ancestor (bLt (α := Char))
      ["azerty".toList, "azetty".toList, "azello".toList]
      = some "aze".toList :=
  ⟨fun _ _ lt _ _ _ hd hdis hpre =>
      common_ancestor_divergent lt hd hdis hpre,
    by decide, by decide⟩

/-- Concrete instantiation of the quantified part of `claim_C1`: the inputs
`[1, 2]` and `[1, 3]` first disagree at index 1, so the result is `[1]`. -/
theorem claim_C1_witness :
    (1 < minLen [[1, 2], [1, 3]] ∧ ¬ colAgree [[1, 2], [1, 3]] 1 ∧
        (∀ i, i < 1 → colAgree ([[1, 2], [1, 3]] : List (List Nat)) i)) ∧
      common_ancestor (bLt (α := Nat)) [[1, 2], [1, 3]] = some [1] :=
  ⟨⟨by decide, by decide, by decide⟩,
    claim_C1.1 Nat (bLt (α := Nat)) [1, 2] [[1, 3]] 1 (by decide) (by decide)
      (by decide)⟩

/-- Claim C2: when every scanned column carries a single distinct value,
`common_ancestor` returns the lexicographic minimum of the inputs; as
consequences, `common_ancestor(a, a) = a` and `common_ancestor(a) = a`. -/
theorem claim_C2 :
    (∀ (α : Type) [inst : LinearOrder α] [inst2 : DecidableEq α]
        (lt : α → α → Bool), (∀ u v, lt u v = true ↔ u < v) →
        ∀ (a : List α) (rest : List (List α)),
        (∀ i, i < minLen (a :: rest) → colAgree (a :: rest) i) →
        ∃ m, common_ancestor lt (a :: rest) = some m ∧
          m ∈ a :: rest ∧
          ∀ b ∈ a :: rest, m = b ∨ pyLexLt lt m b = true) ∧
    (∀ (α : Type) [inst : DecidableEq α] (lt : α → α → Bool) (a : List α),
        common_ancestor lt [a, a] = some a) ∧
    (∀ (α : Type) [inst : DecidableEq α] (lt : α → α → Bool) (a : List α),
        common_ancestor lt [a] = some a) := by
  refine ⟨?_, ?_, ?_⟩
  · intro α _ _ lt hlt a rest h
    rw [common_ancestor_agree lt h]
    exact pyMin_spec hlt a rest
  · intro α _ lt a
    rw [common_ancestor_agree lt (fun i _ => colAgree_pair a i)]
    simp [pyMin, pyFold]
  · intro α _ lt a
    rw [common_ancestor_agree lt (fun i _ => colAgree_single a i)]
    rfl

/-- Concrete instantiation of the quantified parts of `claim_C2`: duplicate
equal inputs produce no divergence and the minimum is the input itself. -/
theorem claim_C2_witness :
    ((∀ u v : String, bLt u v = true ↔ u < v) ∧
        ∀ i, i < minLen [["b", "a"], ["b", "a"]] →
          colAgree [["b", "a"], ["b", "a"]] i) ∧
      ∃ m, common_ancestor (bLt (α := String)) [["b", "a"], ["b", "a"]]
          = some m ∧ m ∈ [["b", "a"], ["b", "a"]] ∧
          ∀ b ∈ [["b", "a"], ["b", "a"]],
            m = b ∨ pyLexLt (bLt (α := String)) m b = true :=
  ⟨⟨fun u v => by simp [bLt], by decide⟩,
    claim_C2.1 String (bLt (α := String)) (fun u v => by simp [bLt])
      ["b", "a"] [["b", "a"]] (by decide)⟩

/-- Claim C4: with every requirement registered, the wrapped operation runs
on its original argument and its result is returned unchanged, after the
probes were called in order with `raise_exception=True`; with a failing
probe after a succeeding prefix, the wrapper raises that probe's error, the
probes after it are never called, and the wrapped operation is never
invoked (the result is the same error for every wrapped function). -/
theorem claim_C4 :
    (∀ (A B : Type) (registry : Registry) (reqs : List String) (f : A → B)
        (x : A),
        (∀ q ∈ reqs, ∃ p b, registry q = some p ∧ p true = .ok b) →
        required registry reqs f x = .ok (f x) ∧
        (runChecks registry reqs).1 = reqs.map (fun q => (q, true))) ∧
    (∀ (A B : Type) (registry : Registry) (pre post : List String)
        (p : Bool → Except PyError Bool) (e : PyError) (r : String)
        (f : A → B) (x : A),
        (∀ q ∈ pre, ∃ pq b, registry q = some pq ∧ pq true = .ok b) →
        registry r = some p → p true = .error e →
        required registry (pre ++ r :: post) f x = .error e ∧
        (runChecks registry (pre ++ r :: post)).1
          = pre.map (fun q => (q, true)) ++ [(r, true)] ∧
        ∀ g : A → B, required registry (pre ++ r :: post) g x = .error e) := by
  constructor
  · intro A B registry reqs f x h
    have hrc := runChecks_ok h
    exact ⟨by simp only [required, hrc], by rw [hrc]⟩
  · intro A B registry pre post p e r f x h hp hpt
    have hrc := runChecks_err post h hp hpt
    exact ⟨by simp only [required, hrc], by rw [hrc],
      fun g => by simp only [required, hrc]⟩

/-- Concrete instantiation of `claim_C4`: with all three optional modules
available, a gated doubling function runs and returns its result, and both
registered probes are called in order. -/
theorem claim_C4_witness :
    (∀ q ∈ ["Colour", "NetworkX"],
        ∃ p b, REQUIREMENTS_TO_CALLABLE true true true q = some p ∧
          p true = Except.ok b) ∧
      required (REQUIREMENTS_TO_CALLABLE true true true) ["Colour", "NetworkX"]
          (fun n : Nat => n * 2) 21 = .ok 42 ∧
      (runChecks (REQUIREMENTS_TO_CALLABLE true true true)
          ["Colour", "NetworkX"]).1 = [("Colour", true), ("NetworkX", true)] := by
  have hall : ∀ q ∈ ["Colour", "NetworkX"],
      ∃ p b, REQUIREMENTS_TO_CALLABLE true true true q = some p ∧
        p true = Except.ok b := by
    intro q hq
    rcases List.mem_cons.mp hq with rfl | hq2
    · exact ⟨is_colour_installed true, true, rfl, rfl⟩
    · rcases List.mem_cons.mp hq2 with rfl | hq3
      · exact ⟨is_networkx_installed true, true, rfl, rfl⟩
      · cases hq3
  obtain ⟨h1, h2⟩ := claim_C4.1 Nat Nat (REQUIREMENTS_TO_CALLABLE true true true)
    ["Colour", "NetworkX"] (fun n : Nat => n * 2) 21 hall
  exact ⟨hall, h1, h2⟩

/-- Claim C5: `multi_replace` applies its pattern/substitution pairs
sequentially, each global substitution operating on the text produced by
the previous one; on the documented example the pattern `\w+less` matches
the text only after the earlier replacements ran, giving
`"Legends Luke Skywalker was strong and powerful."`. -/
theorem claim_C5 :
    (∀ (name : List Char) (p : RE) (s : List Char)
        (rest : List (RE × List Char)),
        multi_replace name ((p, s) :: rest)
          = multi_replace (pySub p s name) rest) ∧
    multi_replace "Canon Luke Skywalker was weak and powerless.".toList
      [(strRE "Canon".toList, "Legends".toList),
       (strRE "weak".toList, "strong".toList),
       (RE.seq (RE.plus (RE.cls isWordChar)) (strRE "less".toList),
        "powerful".toList)]
      = "Legends Luke Skywalker was strong and powerful.".toList :=
  ⟨fun _ _ _ _ => rfl, by decide⟩

/-- Claim C6: `vivified_to_dict` turns a vivified node into a plain dict
with exactly the keys actually set (in order), recursively converts the
values, passes non-`defaultdict` leaves through unchanged, and on the
documented example of setting `root["my"]["attribute"] = 1` yields
`{"my": {"attribute": 1}}`. -/
theorem claim_C6 :
    (∀ (V : Type) (kvs : List (String × PyVal V)),
        ∃ kvs', vivified_to_dict (.vdict kvs) = .pdict kvs' ∧
          kvs'.map Prod.fst = kvs.map Prod.fst ∧
          ∀ k, lookupKV kvs' k = (lookupKV kvs k).map vivified_to_dict) ∧
    (∀ (V : Type) (v : V), vivified_to_dict (.leaf v) = .leaf v) ∧
    vivified_to_dict (vivSetPath2 (vivification) "my" "attribute" (1 : Nat))
      = .pdict [("my", .pdict [("attribute", .leaf 1)])] :=
  ⟨fun _ kvs => ⟨vtdList kvs, rfl, vtdList_map_fst kvs, lookupKV_vtdList kvs⟩,
    fun _ _ => rfl, rfl⟩

/-- Claim C8: a gated call whose requirement list contains a name absent
from the registry always fails with an error before the wrapped operation
runs (the result does not depend on the wrapped function), and when every
earlier requirement's probe succeeds the error is precisely the `KeyError`
for the missing name. -/
theorem claim_C8 :
    (∀ (A B : Type) (registry : Registry) (reqs : List String) (f : A → B)
        (x : A) (r : String), r ∈ reqs → registry r = none →
        (∃ e, required registry reqs f x = .error e) ∧
        ∀ g : A → B, required registry reqs g x = required registry reqs f x) ∧
    (∀ (A B : Type) (registry : Registry) (pre post : List String) (f : A → B)
        (x : A) (r : String),
        (∀ q ∈ pre, ∃ p b, registry q = some p ∧ p true = .ok b) →
        registry r = none →
        required registry (pre ++ r :: post) f x = .error (.keyError r)) := by
  constructor
  · intro A B registry reqs f x r hmem hr
    obtain ⟨e, he⟩ := runChecks_absent hr hmem
    exact ⟨⟨e, by simp only [required, he]⟩,
      fun g => by simp only [required, he]⟩
  · intro A B registry pre post f x r h hr
    have hk := runChecks_keyError hr post h
    simp only [required, hk]

/-- Concrete instantiation of `claim_C8`: the name `"OpenImageIO"` is not
registered, so the gated call fails for every wrapped function. -/
theorem claim_C8_witness :
    ("OpenImageIO" ∈ ["OpenImageIO"] ∧
        REQUIREMENTS_TO_CALLABLE true true true "OpenImageIO" = none) ∧
      (∃ e, required (REQUIREMENTS_TO_CALLABLE true true true) ["OpenImageIO"]
          (fun n : Nat => n) 0 = .error e) ∧
      ∀ g : Nat → Nat,
        required (REQUIREMENTS_TO_CALLABLE true true true) ["OpenImageIO"] g 0
          = required (REQUIREMENTS_TO_CALLABLE true true true) ["OpenImageIO"]
              (fun n : Nat => n) 0 :=
  ⟨⟨by decide, rfl⟩,
    claim_C8.1 Nat Nat (REQUIREMENTS_TO_CALLABLE true true true)
      ["OpenImageIO"] (fun n : Nat => n) 0 "OpenImageIO" (by decide) rfl⟩

/-- Claim C10: `first_item` returns the default for a falsy iterable, but a
truthy iterable that yields no items produces Python `None` rather than the
supplied default, and a truthy iterable yielding at least one item produces
its first item. -/
theorem claim_C10 :
    (∀ (β : Type) (items : List β) (default : Option β),
        first_item ⟨false, items⟩ default = default) ∧
    (∀ (β : Type) (d : β),
        first_item ⟨true, ([] : List β)⟩ (some d) = none) ∧
    (∀ (β : Type) (x : β) (xs : List β) (default : Option β),
        first_item ⟨true, x :: xs⟩ default = some x) :=
  ⟨fun _ _ _ => rfl, fun _ _ => rfl, fun _ _ _ _ => rfl⟩

/-- Claim C7: for two paths whose segment lists (after splitting on the
separator) share the leading segments `d` and then differ, the common path
ancestor is exactly `d` rejoined with the separator, with no `.`/`..`
normalization; and on the docstring example the result is
`/Users/JohnDoe/Documents`. -/
theorem claim_C7 :
    (∀ (sep : Char) (p1 p2 : List Char) (d r1 r2 : List (List Char))
        (x y : List Char),
        pySplit sep p1 = d ++ x :: r1 → pySplit sep p2 = d ++ y :: r2 →
        x ≠ y →
        paths_common_ancestor sep [p1, p2]
          = some (List.intercalate [sep] d)) ∧
    paths_common_ancestor '/'
      ["/Users/JohnDoe/Documents".toList,
       "/Users/JohnDoe/Documents/Test.txt".toList]
      = some "/Users/JohnDoe/Documents".toList := by
  constructor
  · intro sep p1 p2 d r1 r2 x y h1 h2 hxy
    have hmin : d.length < minLen [d ++ x :: r1, d ++ y :: r2] := by
      simp only [minLen, List.length_append, List.length_cons]
      omega
    have hx : x ∈ column [d ++ x :: r1, d ++ y :: r2] d.length := by
      refine mem_column.mpr ⟨d ++ x :: r1, List.mem_cons_self _ _, ?_⟩
      rw [List.getElem?_append]
      simp
    have hy : y ∈ column [d ++ x :: r1, d ++ y :: r2] d.length := by
      refine mem_column.mpr
        ⟨d ++ y :: r2, List.mem_cons_of_mem _ (List.mem_singleton.mpr rfl), ?_⟩
      rw [List.getElem?_append]
      simp
    have hdis : ¬ colAgree [d ++ x :: r1, d ++ y :: r2] d.length :=
      fun hag => hxy (hag x hx y hy)
    have hseg : ∀ l ∈ [d ++ x :: r1, d ++ y :: r2], ∀ i, ∀ hi : i < d.length,
        l[i]? = some (d.get ⟨i, hi⟩) := by
      intro l hl i hi
      have hdi : d[i]? = some (d.get ⟨i, hi⟩) := List.getElem?_eq_getElem hi
      rcases List.mem_cons.mp hl with rfl | hl2
      · rw [List.getElem?_append, if_pos hi, hdi]
      · rw [List.mem_singleton.mp hl2, List.getElem?_append, if_pos hi, hdi]
    have hpre : ∀ i, i < d.length →
        colAgree [d ++ x :: r1, d ++ y :: r2] i := by
      intro i hi u hu v hv
      obtain ⟨lu, hlu, hlu2⟩ := mem_column.mp hu
      obtain ⟨lv, hlv, hlv2⟩ := mem_column.mp hv
      have h1 := (hseg lu hlu i hi).symm.trans hlu2
      have h2 := (hseg lv hlv i hi).symm.trans hlv2
      exact (Option.some.inj h1).symm.trans (Option.some.inj h2)
    have hca := common_ancestor_divergent (pyLexLt (bLt (α := Char)))
      hmin hdis hpre
    simp only [paths_common_ancestor, List.map_cons, List.map_nil, h1, h2, hca,
      Option.map_some']
    rw [List.take_left]
  · decide

/-- Concrete instantiation of the quantified part of `claim_C7`: the paths
`"a/b"` and `"a/c"` share the leading directory `"a"`. -/
theorem claim_C7_witness :
    (pySplit '/' "a/b".toList = [['a']] ++ ['b'] :: [] ∧
        pySplit '/' "a/c".toList = [['a']] ++ ['c'] :: [] ∧
        (['b'] : List Char) ≠ ['c']) ∧
      paths_common_ancestor '/' ["a/b".toList, "a/c".toList]
        = some "a".toList :=
  ⟨⟨by decide, by decide, by decide⟩,
    claim_C7.1 '/' "a/b".toList "a/c".toList [['a']] [] [] ['b'] ['c']
      (by decide) (by decide) (by decide)⟩

/-- Claim C3, counterexample to the stated row count: on the empty message
with the default `width=79, padding=3` the box has exactly 3 rows between
the borders, not 4. -/
theorem claim_C3_cex :
    (interiorRows [] 79 3).length = 3 ∧
      ¬ (interiorRows [] 79 3).length = 4 :=
  ⟨by decide, by decide⟩

/-- Claim C3 as amended: for an empty message and any `width`, `padding`
with `width > 2*padding + 2`, the box has exactly 3 interior rows — a blank
padded row, the row produced by the single-space substitution for the
empty wrap result, and a final blank padded row. -/
theorem claim_C3 :
    ∀ width padding : Nat, 2 * padding + 2 < width →
      interiorRows [] width padding
        = [innerRow width padding [], innerRow width padding [' '],
           innerRow width padding []] := by
  intro w p h
  have hiw : ¬ ((w : Int) - (p : Int) * 2 - 2 ≤ 0) := by
    omega
  have hwrap : pyWrap ((w : Int) - (p : Int) * 2 - 2) [] = .ok [] := by
    simp only [pyWrap, if_neg hiw]
    rfl
  have hm : List.mapM (fun line => pyWrap ((w : Int) - (p : Int) * 2 - 2) line)
      (pySplit '\n' ([] : List Char)) = .ok [[]] := by
    rw [show pySplit '\n' ([] : List Char) = [[]] from rfl, List.mapM_cons,
      hwrap]
    rfl
  have hmb : message_box [] w p
      = .ok ([List.replicate w '=', innerRow w p [], innerRow w p [' '],
              innerRow w p [], List.replicate w '='], true) := by
    simp only [message_box, hm]
    rfl
  simp only [interiorRows, hmb]
  rfl

/-- Concrete instantiation of `claim_C3` at the default geometry. -/
theorem claim_C3_witness :
    2 * 3 + 2 < 79 ∧
      interiorRows [] 79 3
        = [innerRow 79 3 [], innerRow 79 3 [' '], innerRow 79 3 []] :=
  ⟨by decide, claim_C3 79 3 (by decide)⟩

/-- Claim C9, counterexample to unconditional success: with `width=4,
padding=3` the wrapper's width is non-positive and `message_box` raises
`ValueError` instead of returning `True`. -/
theorem claim_C9_cex : message_box [] 4 3 = .error "invalid width" := rfl

/-- Claim C9 as amended: whenever `width > 2*padding + 2` (the wrapper's
width is positive), `message_box` completes for every message and returns
`True`; its boolean conveys completion only. -/
theorem claim_C9 :
    ∀ (message : List Char) (width padding : Nat),
      2 * padding + 2 < width →
      ∃ rows, message_box message width padding = .ok (rows, true) := by
  intro m w p h
  have hiw : ¬ ((w : Int) - (p : Int) * 2 - 2 ≤ 0) := by
    omega
  have hwrap : ∀ line, pyWrap ((w : Int) - (p : Int) * 2 - 2) line
      = .ok (textWrap ((w : Int) - (p : Int) * 2 - 2).toNat line) := by
    intro line
    simp only [pyWrap, if_neg hiw]
  simp only [message_box, mapM_ok hwrap]
  exact ⟨_, rfl⟩

/-- Concrete instantiation of `claim_C9` at the default geometry. -/
theorem claim_C9_witness :
    2 * 3 + 2 < 79 ∧
      ∃ rows, message_box "hi".toList 79 3 = .ok (rows, true) :=
  ⟨by decide, claim_C9 "hi".toList 79 3 (by decide)⟩

end OCIOUtil
